import Mathlib

/-!
# Verification of pyDVL's Monte Carlo Shapley estimators

A shallow embedding of `src/pydvl/value/shapley/montecarlo.py`.  Scores are
modelled as rationals (`ℚ`); the utility oracle is an arbitrary function
`Finset ℕ → ℚ` on subsets of the index set `{0, …, N-1}`.  Randomness is
externalized: every random draw (a permutation, or a list of sampled subsets)
is an explicit input of the embedded function, and claims quantify over all
possible draws.  Standard errors are represented by their squares (`stderrSq`),
since `x ↦ √x` is injective on the nonnegative values produced by the code;
every statement about a standard error is stated about its square.
-/

namespace PyDVL

/-- Mean of a list of rationals (`np.mean`); `0` on the empty list
(in `ℚ`, `x / 0 = 0`). -/
def listMean (xs : List ℚ) : ℚ := xs.sum / xs.length

/-- Population variance of a list of rationals (`np.std(xs)^2`, numpy's
default `ddof=0`); `0` on the empty list. -/
def listPopVar (xs : List ℚ) : ℚ :=
  (xs.map (fun x => (x - listMean xs) ^ 2)).sum / xs.length

/-- Sum of squares of a list of rationals. -/
def listSumSq (xs : List ℚ) : ℚ := (xs.map (fun x => x ^ 2)).sum

/-- Modelled from the spec: `get_running_avg_variance` lives in
`pydvl/utils/numeric.py`, which is not part of the sources at hand (only its
caller `montecarlo.py` is).  The spec (§4.1) requires a single-pass,
Welford-style update `update(mean, variance, new_value, count) ->
(new_mean, new_variance)` whose incremental updates match the batch mean and
population variance of the sequence seen so far (§8).  This is the standard
Welford update with population variance. -/
def get_running_avg_variance (previousAvg previousVariance newValue count : ℚ) :
    ℚ × ℚ :=
  let newAverage := previousAvg + (newValue - previousAvg) / (count + 1)
  let newVariance :=
    (previousVariance * count + (newValue - previousAvg) * (newValue - newAverage))
      / (count + 1)
  (newAverage, newVariance)

/-- One accumulator step as performed by the combinatorial worker's inner loop
(`montecarlo.py` lines 296-299): feed the marginal through
`get_running_avg_variance` and increment the count. -/
def accStep (st : ℚ × ℚ × ℚ) (x : ℚ) : ℚ × ℚ × ℚ :=
  let r := get_running_avg_variance st.1 st.2.1 x st.2.2
  (r.1, r.2, st.2.2 + 1)

theorem listMean_nil : listMean [] = 0 := by simp [listMean]

theorem accStep_apply (m v c x : ℚ) :
    accStep (m, v, c) x =
      (m + (x - m) / (c + 1),
        (v * c + (x - m) * (x - (m + (x - m) / (c + 1)))) / (c + 1), c + 1) := rfl

theorem listSumSq_append (xs ys : List ℚ) :
    listSumSq (xs ++ ys) = listSumSq xs + listSumSq ys := by
  simp [listSumSq]

/-- Folding the accumulator over a list starting from the zero state yields
the running sum/sum-of-squares statistics: the first component is the batch
mean, the middle one is `S₂/n - (S₁/n)²`, the last one the length. -/
theorem accStep_foldl (xs : List ℚ) :
    xs.foldl accStep (0, 0, 0) =
      (listMean xs, listSumSq xs / xs.length - (listMean xs) ^ 2,
        (xs.length : ℚ)) := by
  induction xs using List.reverseRecOn with
  | nil => simp [listMean, listSumSq]
  | append_singleton ys x ih =>
      rw [List.foldl_append, ih, List.foldl_cons, List.foldl_nil, accStep_apply]
      rcases eq_or_ne ys.length 0 with h0 | h0
      · have hnil : ys = [] := List.length_eq_zero.mp h0
        subst hnil
        norm_num [listMean, listSumSq]
      · have hc : (ys.length : ℚ) ≠ 0 := by exact_mod_cast h0
        have hc1 : (ys.length : ℚ) + 1 ≠ 0 := by positivity
        simp only [listMean, listSumSq, List.length_append, List.sum_append,
          List.map_append, List.length_cons, List.length_nil, List.sum_cons,
          List.sum_nil, List.map_cons, List.map_nil, Nat.cast_add, Nat.cast_one,
          Prod.mk.injEq]
        refine ⟨?_, ?_, ?_⟩ <;> field_simp <;> ring

/-! ## Permutation estimator

`_permutation_montecarlo_marginals` (montecarlo.py lines 174-202) walks each
sampled permutation left to right, keeping a running score that starts at the
literal constant `0.0` (`prev_score = 0.0`, line 194), and writes
`score - prev_score` into the slot of the item at the current position.  A row
is modelled as a function `ℕ → ℚ` from item index to marginal. -/

/-- One iteration of the permutation walk (lines 193-201): the marginal of the
item at position `i` is `u(perm[: i+1]) - prev_score`. -/
def marginalsRow (u : Finset ℕ → ℚ) (perm : List ℕ) : ℕ → ℚ :=
  (perm.enum.foldl
    (fun (st : ℚ × (ℕ → ℚ)) (p : ℕ × ℕ) =>
      let score := u (perm.take (p.1 + 1)).toFinset
      (score, Function.update st.2 p.2 (score - st.1)))
    (0, fun _ => 0)).2

/-- The worker matrix of `_permutation_montecarlo_marginals`: one row per
sampled permutation (`perms it` is the permutation drawn at iteration `it`),
`maxPermutations` rows in total. -/
def permutation_montecarlo_marginals (u : Finset ℕ → ℚ)
    (perms : ℕ → List ℕ) (maxPermutations : ℕ) : List (ℕ → ℚ) :=
  (List.range maxPermutations).map (fun it => marginalsRow u (perms it))

/-- The reduction of `permutation_montecarlo_shapley` (lines 230-242): the
per-worker matrices are concatenated row-wise (`reduce_func=np.concatenate`,
`axis=0`), then per item the value is the mean over all rows of the
concatenated matrix and the squared standard error is the population variance
over all rows divided by the row count (`np.std(...)/np.sqrt(count)`,
squared). -/
def permutation_reduce (workerMatrices : List (List (ℕ → ℚ))) :
    (ℕ → ℚ) × (ℕ → ℚ) :=
  let fullResults := workerMatrices.flatten
  (fun i => listMean (fullResults.map (fun r => r i)),
   fun i => listPopVar (fullResults.map (fun r => r i)) / fullResults.length)

/-- `iterations_per_job` of `permutation_montecarlo_shapley` (line 228):
`max(1, max_iterations // n_jobs)` with Python floor division. -/
def iterations_per_job (maxIterations nJobs : ℕ) : ℕ :=
  max 1 (maxIterations / nJobs)

/-- The per-worker matrices produced by `permutation_montecarlo_shapley`'s
map phase: the job input is replicated (`chunkify_inputs=False`), so each of
the `nJobs` workers computes a matrix with `iterations_per_job` rows from its
own permutation stream `perms w`. -/
def permutationJobMatrices (u : Finset ℕ → ℚ) (perms : ℕ → ℕ → List ℕ)
    (maxIterations nJobs : ℕ) : List (List (ℕ → ℚ)) :=
  (List.range nJobs).map
    (fun w => permutation_montecarlo_marginals u (perms w)
      (iterations_per_job maxIterations nJobs))

/-! ## Combinatorial estimator -/

/-- The result record returned by the workers (`MonteCarloResults` in
montecarlo.py, lines 63-66), with the standard error replaced by its
square. -/
structure MonteCarloResults where
  values : ℕ → ℚ
  stderrSq : ℕ → ℚ
  nSamples : Option ℕ := none

/-- The list of marginals fed to the accumulator for item `idx`
(montecarlo.py line 295): for each sampled subset `s` of the index set
without `idx`, `(u(s ∪ {idx}) - u(s)) / C(n-1, |s|)`.  `samples idx` is the
realized output of `random_powerset` for that item (randomness is an explicit
input). -/
def combinatorialMarginals (n : ℕ) (u : Finset ℕ → ℚ)
    (samples : ℕ → List (Finset ℕ)) (idx : ℕ) : List ℚ :=
  (samples idx).map
    (fun s => (u (insert idx s) - u s) / ((n - 1).choose s.card : ℚ))

/-- The accumulation loop of `_combinatorial_montecarlo_shapley` (lines
280-299): the `values`/`variances`/`counts` arrays are modelled as one
function `ℕ → ℚ × ℚ × ℚ`; for each `idx` in the worker's index chunk the
inner loop folds the accumulator over the marginals of `idx`, touching only
cell `idx`. -/
def combinatorialLoopStep (n : ℕ) (u : Finset ℕ → ℚ)
    (samples : ℕ → List (Finset ℕ)) (st : ℕ → ℚ × ℚ × ℚ) (idx : ℕ) :
    ℕ → ℚ × ℚ × ℚ :=
  Function.update st idx
    ((combinatorialMarginals n u samples idx).foldl accStep (st idx))

/-- The outer loop over the worker's index chunk (lines 284-299). -/
def combinatorialLoop (n : ℕ) (u : Finset ℕ → ℚ)
    (samples : ℕ → List (Finset ℕ)) (indices : List ℕ) : ℕ → ℚ × ℚ × ℚ :=
  indices.foldl (combinatorialLoopStep n u samples) (fun _ => (0, 0, 0))

/-- The Monte Carlo integration correction of
`_combinatorial_montecarlo_shapley` (line 278): `2^(n-1) / n`. -/
def combinatorialCorrection (n : ℕ) : ℚ := 2 ^ (n - 1) / n

/-- The result built by `_combinatorial_montecarlo_shapley` after its loop
(lines 301-304): values scaled by the correction, squared standard error
`correction² · variance / max(1, count)`. -/
def combinatorialWorkerResult (n : ℕ) (u : Finset ℕ → ℚ)
    (samples : ℕ → List (Finset ℕ)) (indices : List ℕ) : MonteCarloResults :=
  let st := combinatorialLoop n u samples indices
  { values := fun i => combinatorialCorrection n * (st i).1,
    stderrSq := fun i =>
      combinatorialCorrection n ^ 2 * (st i).2.1 / max 1 (st i).2.2 }

/-- `_combinatorial_montecarlo_shapley` (lines 250-304): first the duplicate
check of line 271 (`len(np.unique(indices)) != len(indices)`, i.e. the number
of distinct indices differs from the list length) raises
`ValueError("Repeated indices passed")`; only then does the sampling loop
run. -/
def combinatorial_montecarlo_worker (n : ℕ) (u : Finset ℕ → ℚ)
    (samples : ℕ → List (Finset ℕ)) (indices : List ℕ) :
    Except String MonteCarloResults :=
  if indices.dedup.length ≠ indices.length then
    .error "Repeated indices passed"
  else
    .ok (combinatorialWorkerResult n u samples indices)

/-- The reducer of `combinatorial_montecarlo_shapley` (lines 336-345): start
from zero vectors and add each worker's value and standard-error vectors
element-wise.  The code adds the unsquared standard errors (`stderr += std`);
here standard errors are represented by their squares, and on the
disjoint-support inputs this reducer receives (each index is non-zero in at
most one summand) addition of squares agrees exactly with squaring the sum,
since `(0 + x)² = 0² + x²`. -/
def combinatorialReduceStep (acc r : MonteCarloResults) : MonteCarloResults :=
  { values := fun i => acc.values i + r.values i,
    stderrSq := fun i => acc.stderrSq i + r.stderrSq i }

def combinatorial_reduce (results : List MonteCarloResults) :
    MonteCarloResults :=
  results.foldl combinatorialReduceStep
    { values := fun _ => 0, stderrSq := fun _ => 0 }

/-! ## Owen estimator -/

/-- The two sampling modes of the Owen estimator (montecarlo.py lines
365-367). -/
inductive OwenAlgorithm where
  | Full
  | Halved
deriving DecidableEq

/-- The innermost loop of `_owen_sampling_shapley` (lines 420-432): for one
sampled subset `s` drawn at inclusion probability `q`, walk every item `i` of
the index set `{0, …, n-1}`.  An item inside `s` is skipped in `Full` mode and
contributes the complementary-subset marginal in `Halved` mode (the complement
is taken in the index set, line 428); an item outside `s` contributes
`u({i} ∪ s) - u(s)`.  Every contribution is divided by
`correction = max(1/500, 1-q)` (line 420) and added to the running values. -/
def owenItemStep (n : ℕ) (u : Finset ℕ → ℚ) (method : OwenAlgorithm)
    (q : ℚ) (s : Finset ℕ) (v : ℕ → ℚ) (i : ℕ) : ℕ → ℚ :=
  if i ∈ s then
    match method with
    | .Full => v
    | .Halved =>
        let sComplement := Finset.range n \ s
        Function.update v i
          (v i + (u (insert i sComplement) - u sComplement)
            / max (1 / 500) (1 - q))
  else
    Function.update v i
      (v i + (u (insert i s) - u s) / max (1 / 500) (1 - q))

/-- The loop `for i in u.data.indices` for one sampled subset (lines
422-432). -/
def owenSubsetStep (n : ℕ) (u : Finset ℕ → ℚ) (method : OwenAlgorithm)
    (q : ℚ) (s : Finset ℕ) (v : ℕ → ℚ) : ℕ → ℚ :=
  (List.range n).foldl (owenItemStep n u method q s) v

/-- The net contribution that `owenItemStep` adds to the cell of item `i` for
one sampled subset `s` drawn at probability `q` (zero for a skipped item). -/
def owenContribution (n : ℕ) (u : Finset ℕ → ℚ) (method : OwenAlgorithm)
    (q : ℚ) (s : Finset ℕ) (i : ℕ) : ℚ :=
  if i ∈ s then
    match method with
    | .Full => 0
    | .Halved =>
        (u (insert i (Finset.range n \ s)) - u (Finset.range n \ s))
          / max (1 / 500) (1 - q)
  else
    (u (insert i s) - u s) / max (1 / 500) (1 - q)

/-- The loop over the subsets sampled at one evaluation point `q` (lines
405-432). -/
def owenDrawStep (n : ℕ) (u : Finset ℕ → ℚ) (method : OwenAlgorithm)
    (v : ℕ → ℚ) (qs : ℚ × List (Finset ℕ)) : ℕ → ℚ :=
  qs.2.foldl (fun v s => owenSubsetStep n u method qs.1 s v) v

/-- The accumulated value vector of `_owen_sampling_shapley` (lines 398-432):
`draws` pairs each evaluation point `q` with the realized list of subsets
sampled by `random_powerset` at that `q`. -/
def owenWorkerValues (n : ℕ) (u : Finset ℕ → ℚ) (method : OwenAlgorithm)
    (draws : List (ℚ × List (Finset ℕ))) : ℕ → ℚ :=
  draws.foldl (owenDrawStep n u method) (fun _ => 0)

/-- The result returned by `_owen_sampling_shapley` (lines 439-443): the
accumulated values, an all-zero standard-error vector (variance tracking is
commented out in the source), and `n_samples = len(q_values) *
max_iterations`. -/
def owen_sampling_worker (n : ℕ) (u : Finset ℕ → ℚ) (method : OwenAlgorithm)
    (draws : List (ℚ × List (Finset ℕ))) (maxIterations : ℕ) :
    MonteCarloResults :=
  { values := owenWorkerValues n u method draws,
    stderrSq := fun _ => 0,
    nSamples := some (draws.length * maxIterations) }

/-- The reducer of `owen_sampling_shapley` (lines 509-517): sum the worker
value vectors and the worker sample counts separately, then divide the summed
vector once by the total count; the returned standard errors are zero. -/
def owenReduceStep (acc : (ℕ → ℚ) × ℕ) (r : MonteCarloResults) :
    (ℕ → ℚ) × ℕ :=
  (fun i => acc.1 i + r.values i, acc.2 + r.nSamples.getD 0)

def owen_reduce (results : List MonteCarloResults) : MonteCarloResults :=
  let acc := results.foldl owenReduceStep (fun _ => 0, 0)
  { values := fun i => acc.1 i / (acc.2 : ℚ),
    stderrSq := fun _ => 0 }

/-! ## Coordinator construction (truncated Monte Carlo Shapley) -/

/-- Modelled from the spec: the `ShapleyCoordinator` of
`pydvl/value/shapley/actor.py` is not part of the sources at hand (only its
caller `truncated_montecarlo_shapley` is).  The spec (§4.5, §7) states that
either stopping threshold may be `None` but at least one must be set, and that
an unbounded run (both `None`) is rejected at the orchestration boundary with
a clear diagnostic.  Only the stopping configuration is modelled. -/
structure ShapleyCoordinator where
  value_tolerance : Option ℚ
  max_iterations : Option ℕ

/-- Modelled from the spec: construction of the coordinator
(`get_shapley_coordinator`, imported from `actor.py`), rejecting the
configuration in which both stopping thresholds are `None`. -/
def get_shapley_coordinator (valueTolerance : Option ℚ)
    (maxIterations : Option ℕ) : Except String ShapleyCoordinator :=
  match valueTolerance, maxIterations with
  | none, none =>
      .error "At least one of value_tolerance and max_iterations must be set"
  | vt, mi => .ok { value_tolerance := vt, max_iterations := mi }

/-- The orchestration boundary of `truncated_montecarlo_shapley`
(montecarlo.py lines 137-166): the coordinator is constructed (line 143)
before any worker is started and before the polling loop (lines 160-165)
runs; a construction error therefore rejects the call up front.  Only the
part up to coordinator construction is modelled — the polling loop itself is
real-time concurrency, out of reach of the embedding and irrelevant to the
rejection behaviour. -/
def truncated_montecarlo_shapley (valueTolerance : Option ℚ)
    (maxIterations : Option ℕ) : Except String ShapleyCoordinator :=
  get_shapley_coordinator valueTolerance maxIterations

/-! ## Helper lemmas -/

/-- `len(np.unique(indices)) == len(indices)` is exactly freedom from
duplicates. -/
theorem dedup_length_eq_iff (l : List ℕ) :
    l.dedup.length = l.length ↔ l.Nodup := by
  constructor
  · intro h
    have hsub : l.dedup.Sublist l := List.dedup_sublist l
    have heq : l.dedup = l := hsub.eq_of_length h
    rw [← heq]
    exact l.nodup_dedup
  · intro h
    rw [List.dedup_eq_self.mpr h]

theorem sum_sq_dev (m : ℚ) (xs : List ℚ) :
    (xs.map (fun x => (x - m) ^ 2)).sum
      = listSumSq xs - 2 * m * xs.sum + xs.length * m ^ 2 := by
  induction xs with
  | nil => simp [listSumSq]
  | cons x t ih =>
      simp only [List.map_cons, List.sum_cons, listSumSq, List.length_cons,
        Nat.cast_add, Nat.cast_one] at ih ⊢
      rw [ih]
      ring

/-- The population variance equals `S₂/n - (S₁/n)²`. -/
theorem listPopVar_eq (xs : List ℚ) :
    listPopVar xs = listSumSq xs / xs.length - listMean xs ^ 2 := by
  rcases eq_or_ne xs.length 0 with h0 | h0
  · have hnil : xs = [] := List.length_eq_zero.mp h0
    subst hnil
    simp [listPopVar, listSumSq, listMean]
  · have hc : (xs.length : ℚ) ≠ 0 := by exact_mod_cast h0
    rw [listPopVar, sum_sq_dev, listMean]
    field_simp
    ring

/-- The accumulator fold computes the batch mean, the population variance and
the count of the marginal list. -/
theorem accStep_foldl_stats (xs : List ℚ) :
    xs.foldl accStep (0, 0, 0) =
      (listMean xs, listPopVar xs, (xs.length : ℚ)) := by
  rw [accStep_foldl, listPopVar_eq]

/-- The outer loop of the combinatorial worker only ever touches the cell of
the index being processed: on a duplicate-free chunk, each cell ends up
holding the accumulator fold over its own marginals, started from what the
cell held initially. -/
theorem combinatorialLoop_foldl_apply (n : ℕ) (u : Finset ℕ → ℚ)
    (samples : ℕ → List (Finset ℕ)) :
    ∀ (l : List ℕ), l.Nodup → ∀ (st : ℕ → ℚ × ℚ × ℚ) (i : ℕ),
      l.foldl (combinatorialLoopStep n u samples) st i =
        if i ∈ l then
          (combinatorialMarginals n u samples i).foldl accStep (st i)
        else st i := by
  intro l
  induction l with
  | nil => intro _ st i; simp
  | cons idx t ih =>
      intro hnd st i
      obtain ⟨hidx, hndt⟩ := List.nodup_cons.mp hnd
      rw [List.foldl_cons, ih hndt]
      rcases eq_or_ne i idx with rfl | hne
      · simp [hidx, combinatorialLoopStep]
      · simp [combinatorialLoopStep, Function.update_noteq hne, List.mem_cons,
          hne]

theorem combinatorialLoop_apply (n : ℕ) (u : Finset ℕ → ℚ)
    (samples : ℕ → List (Finset ℕ)) (indices : List ℕ)
    (h : indices.Nodup) (i : ℕ) :
    combinatorialLoop n u samples indices i =
      if i ∈ indices then
        (listMean (combinatorialMarginals n u samples i),
          listPopVar (combinatorialMarginals n u samples i),
          ((combinatorialMarginals n u samples i).length : ℚ))
      else (0, 0, 0) := by
  rw [combinatorialLoop, combinatorialLoop_foldl_apply n u samples indices h,
    accStep_foldl_stats]

/-- Each branch of `owenItemStep` is an update of the walked cell by the net
contribution of the current subset (a skipped item is updated by zero). -/
theorem owenItemStep_eq_update (n : ℕ) (u : Finset ℕ → ℚ)
    (method : OwenAlgorithm) (q : ℚ) (s : Finset ℕ) (v : ℕ → ℚ) (i : ℕ) :
    owenItemStep n u method q s v i =
      Function.update v i (v i + owenContribution n u method q s i) := by
  by_cases his : i ∈ s
  · cases method with
    | Full =>
        simp [owenItemStep, owenContribution, his, Function.update_eq_self]
    | Halved => simp [owenItemStep, owenContribution, his]
  · simp [owenItemStep, owenContribution, his]

/-- Folding per-cell updates over a duplicate-free list adds each listed
cell's contribution exactly once. -/
theorem foldl_update_add_apply (g : ℕ → ℚ) :
    ∀ (l : List ℕ), l.Nodup → ∀ (v : ℕ → ℚ) (i : ℕ),
      l.foldl (fun v j => Function.update v j (v j + g j)) v i =
        v i + if i ∈ l then g i else 0 := by
  intro l
  induction l with
  | nil => intro _ v i; simp
  | cons j t ih =>
      intro hnd v i
      obtain ⟨hj, hndt⟩ := List.nodup_cons.mp hnd
      rw [List.foldl_cons, ih hndt]
      rcases eq_or_ne i j with rfl | hne
      · simp [hj]
      · simp [Function.update_noteq hne, List.mem_cons, hne]

/-- Item-level view of one subset step of the Owen walk. -/
theorem owenSubsetStep_apply (n : ℕ) (u : Finset ℕ → ℚ)
    (method : OwenAlgorithm) (q : ℚ) (s : Finset ℕ) (v : ℕ → ℚ) (i : ℕ) :
    owenSubsetStep n u method q s v i =
      v i + if i < n then owenContribution n u method q s i else 0 := by
  have hstep : owenItemStep n u method q s =
      fun v j => Function.update v j (v j + owenContribution n u method q s j) := by
    funext v j
    exact owenItemStep_eq_update n u method q s v j
  rw [owenSubsetStep, hstep,
    foldl_update_add_apply _ (List.range n) (List.nodup_range n) v i]
  simp [List.mem_range]

/-- Folding the Owen subset step over a list of sampled subsets accumulates
the per-subset contributions of each tracked item. -/
theorem owen_subsets_foldl_apply (n : ℕ) (u : Finset ℕ → ℚ)
    (method : OwenAlgorithm) (q : ℚ) :
    ∀ (ss : List (Finset ℕ)) (v : ℕ → ℚ) (i : ℕ), i < n →
      ss.foldl (fun v s => owenSubsetStep n u method q s v) v i =
        v i + (ss.map (fun s => owenContribution n u method q s i)).sum := by
  intro ss
  induction ss with
  | nil => intro v i _; simp
  | cons s t ih =>
      intro v i hi
      rw [List.foldl_cons, ih _ i hi, owenSubsetStep_apply, if_pos hi,
        List.map_cons, List.sum_cons]
      ring

/-- Closed form of the Owen worker's accumulated values. -/
theorem owenWorkerValues_foldl_apply (n : ℕ) (u : Finset ℕ → ℚ)
    (method : OwenAlgorithm) :
    ∀ (draws : List (ℚ × List (Finset ℕ))) (v : ℕ → ℚ) (i : ℕ), i < n →
      draws.foldl (owenDrawStep n u method) v i =
        v i + (draws.map (fun qs =>
          (qs.2.map (fun s => owenContribution n u method qs.1 s i)).sum)).sum := by
  intro draws
  induction draws with
  | nil => intro v i _; simp
  | cons qs t ih =>
      intro v i hi
      rw [List.foldl_cons, ih _ i hi, owenDrawStep,
        owen_subsets_foldl_apply n u method qs.1 qs.2 v i hi,
        List.map_cons, List.sum_cons]
      ring

/-- The combinatorial reducer's fold is element-wise summation. -/
theorem combinatorial_reduce_foldl_apply :
    ∀ (results : List MonteCarloResults) (acc : MonteCarloResults) (i : ℕ),
      (results.foldl combinatorialReduceStep acc).values i =
          acc.values i + (results.map (fun r => r.values i)).sum ∧
        (results.foldl combinatorialReduceStep acc).stderrSq i =
          acc.stderrSq i + (results.map (fun r => r.stderrSq i)).sum := by
  intro results
  induction results with
  | nil => intro acc i; simp
  | cons r t ih =>
      intro acc i
      rw [List.foldl_cons]
      obtain ⟨h1, h2⟩ := ih (combinatorialReduceStep acc r) i
      refine ⟨?_, ?_⟩
      · rw [h1]
        simp only [combinatorialReduceStep, List.map_cons, List.sum_cons]
        ring
      · rw [h2]
        simp only [combinatorialReduceStep, List.map_cons, List.sum_cons]
        ring

/-- The Owen reducer's fold sums the value vectors and the sample counts
separately. -/
theorem owen_reduce_foldl_apply :
    ∀ (results : List MonteCarloResults) (acc : (ℕ → ℚ) × ℕ) (i : ℕ),
      (results.foldl owenReduceStep acc).1 i =
          acc.1 i + (results.map (fun r => r.values i)).sum ∧
        (results.foldl owenReduceStep acc).2 =
          acc.2 + (results.map (fun r => r.nSamples.getD 0)).sum := by
  intro results
  induction results with
  | nil => intro acc i; simp
  | cons r t ih =>
      intro acc i
      rw [List.foldl_cons]
      obtain ⟨h1, h2⟩ := ih (owenReduceStep acc r) i
      refine ⟨?_, ?_⟩
      · rw [h1]
        simp only [owenReduceStep, List.map_cons, List.sum_cons]
        ring
      · rw [h2]
        simp only [owenReduceStep, List.map_cons, List.sum_cons]
        ring

/-- The single permutation of a one-item dataset produces the row
`[u({0}) - 0]`: the running score starts at the constant `0.0`. -/
theorem marginalsRow_singleton (u : Finset ℕ → ℚ) :
    marginalsRow u [0] 0 = u {0} - 0 := by
  simp [marginalsRow, List.enum]

theorem listMean_replicate (k : ℕ) (hk : 0 < k) (c : ℚ) :
    listMean (List.replicate k c) = c := by
  have hk0 : (k : ℚ) ≠ 0 := by positivity
  rw [listMean, List.sum_replicate, List.length_replicate, nsmul_eq_mul,
    mul_comm, mul_div_assoc, div_self hk0, mul_one]

theorem sum_if_mem_eq_zero (f : ℕ → ℚ) (i : ℕ) :
    ∀ (chunks : List (List ℕ)), i ∉ chunks.flatten →
      (chunks.map (fun c => if i ∈ c then f i else 0)).sum = 0 := by
  intro chunks
  induction chunks with
  | nil => intro _; simp
  | cons c t ih =>
      intro hi
      rw [List.flatten_cons, List.mem_append] at hi
      push_neg at hi
      rw [List.map_cons, List.sum_cons, if_neg hi.1, ih hi.2, zero_add]

/-- Summing per-chunk indicator contributions over a duplicate-free partition
picks out the single chunk containing the item. -/
theorem sum_if_mem_flatten (f : ℕ → ℚ) (i : ℕ) :
    ∀ (chunks : List (List ℕ)), chunks.flatten.Nodup →
      (chunks.map (fun c => if i ∈ c then f i else 0)).sum =
        if i ∈ chunks.flatten then f i else 0 := by
  intro chunks
  induction chunks with
  | nil => intro _; simp
  | cons c t ih =>
      intro hnd
      rw [List.flatten_cons] at hnd ⊢
      obtain ⟨hc, ht, hdisj⟩ := List.nodup_append.mp hnd
      rw [List.map_cons, List.sum_cons, ih ht]
      by_cases hic : i ∈ c
      · have hit : i ∉ t.flatten := fun hit => hdisj hic hit
        simp [hic, hit, List.mem_append]
      · simp [hic, List.mem_append]

/-- Per-item view of the combinatorial worker's result on a duplicate-free
index chunk: items outside the chunk carry zero value and zero standard
error. -/
theorem combinatorialWorkerResult_apply (n : ℕ) (u : Finset ℕ → ℚ)
    (samples : ℕ → List (Finset ℕ)) (c : List ℕ) (hc : c.Nodup) (i : ℕ) :
    (combinatorialWorkerResult n u samples c).values i =
        (if i ∈ c then
          combinatorialCorrection n *
            listMean (combinatorialMarginals n u samples i)
        else 0) ∧
      (combinatorialWorkerResult n u samples c).stderrSq i =
        (if i ∈ c then
          combinatorialCorrection n ^ 2 *
            listPopVar (combinatorialMarginals n u samples i) /
            max 1 ((combinatorialMarginals n u samples i).length : ℚ)
        else 0) := by
  rw [combinatorialWorkerResult]
  simp only [combinatorialLoop_apply n u samples c hc i]
  by_cases hic : i ∈ c
  · simp [hic]
  · norm_num [hic]

/-! ## Claims -/

/-- C1 (counterexample): the claim "for every single-item dataset and every
utility oracle `u`, the permutation worker's row equals `u({0}) - u({})`" is
false at the oracle `u(s) = |s| + 1`: the row holds `u({0}) - 0 = 2`, while
`u({0}) - u({}) = 1`, because the running score is initialized to the
constant `0.0` (montecarlo.py line 194), not to `u({})`. -/
theorem C1_counterexample :
    marginalsRow (fun s => (s.card : ℚ) + 1) [0] 0 ≠
      (fun s : Finset ℕ => (s.card : ℚ) + 1) {0} -
        (fun s : Finset ℕ => (s.card : ℚ) + 1) ∅ := by
  rw [marginalsRow_singleton]
  norm_num

/-- C1 (amended): for every single-item dataset and every utility oracle `u`,
the permutation worker's row equals `u({0}) - 0` exactly — the running score
starts at the constant `0.0` — and the value obtained after mean-reduction of
any positive number of such rows equals `u({0})` exactly, with no sampling
noise; this equals `u({0}) - u({})` exactly whenever `u({}) = 0`. -/
theorem C1_single_item_marginal (u : Finset ℕ → ℚ) (p : List ℕ)
    (hp : p.Perm [0]) (k : ℕ) (hk : 0 < k) :
    marginalsRow u p 0 = u {0} - 0 ∧
      (permutation_reduce [List.replicate k (marginalsRow u p)]).1 0 =
        u {0} := by
  have hp0 : p = [0] := List.perm_singleton.mp hp
  subst hp0
  refine ⟨marginalsRow_singleton u, ?_⟩
  show listMean (([List.replicate k (marginalsRow u [0])].flatten).map
    (fun r => r 0)) = u {0}
  rw [List.flatten, List.flatten]
  simp only [List.append_nil, List.map_replicate, marginalsRow_singleton u]
  rw [listMean_replicate k hk]
  ring

/-- C1 (witness for the amended claim). -/
theorem C1_single_item_marginal_witness :
    marginalsRow (fun s => (s.card : ℚ) + 1) [0] 0 =
        (fun s : Finset ℕ => (s.card : ℚ) + 1) {0} - 0 ∧
      (permutation_reduce
        [List.replicate 1 (marginalsRow (fun s => (s.card : ℚ) + 1) [0])]).1 0 =
        (fun s : Finset ℕ => (s.card : ℚ) + 1) {0} :=
  C1_single_item_marginal (fun s => (s.card : ℚ) + 1) [0] (by decide) 1
    (by decide)

/-- C2: the reduction of `permutation_montecarlo_shapley` operates on the
full concatenated sample matrix: for every list of per-worker marginal
matrices, the per-item value is the grand total of that item's marginals over
all rows of all workers divided by the total row count (never an average of
per-worker averages), and the squared standard error is the population
variance over the concatenated rows divided by the total row count
(`(std/√count)²`). -/
theorem C2_permutation_reduction (workerMatrices : List (List (ℕ → ℚ)))
    (i : ℕ) :
    (permutation_reduce workerMatrices).1 i =
        (workerMatrices.map (fun m => (m.map (fun r => r i)).sum)).sum /
          ((workerMatrices.map List.length).sum : ℚ) ∧
      (permutation_reduce workerMatrices).2 i =
        listPopVar (workerMatrices.flatten.map (fun r => r i)) /
          ((workerMatrices.map List.length).sum : ℚ) := by
  constructor
  · show listMean (workerMatrices.flatten.map (fun r => r i)) = _
    simp only [listMean, List.map_flatten, List.sum_flatten, List.map_map,
      Function.comp_def, List.length_map, List.length_flatten]
  · show listPopVar (workerMatrices.flatten.map (fun r => r i)) /
        ((workerMatrices.flatten.length : ℕ) : ℚ) = _
    rw [List.length_flatten]

/-- C3: on a duplicate-free index chunk the combinatorial worker returns
normally, and for every item `idx` of the chunk the marginals
`(u(s ∪ {idx}) - u(s)) / C(n-1, |s|)` of the sampled subsets are fed through
the online accumulator, so that the returned value is
`correction * accumulated mean` with `correction = 2^(n-1)/n`, and the
returned squared standard error is
`correction² * accumulated variance / count`. -/
theorem C3_combinatorial_worker (n : ℕ) (u : Finset ℕ → ℚ)
    (samples : ℕ → List (Finset ℕ)) (indices : List ℕ) (idx : ℕ)
    (hnd : indices.Nodup) (hidx : idx ∈ indices)
    (hs : 0 < (samples idx).length) :
    combinatorial_montecarlo_worker n u samples indices =
        Except.ok (combinatorialWorkerResult n u samples indices) ∧
      (combinatorialWorkerResult n u samples indices).values idx =
        2 ^ (n - 1) / (n : ℚ) *
          listMean (combinatorialMarginals n u samples idx) ∧
      (combinatorialWorkerResult n u samples indices).stderrSq idx =
        (2 ^ (n - 1) / (n : ℚ)) ^ 2 *
          (listPopVar (combinatorialMarginals n u samples idx) /
            ((samples idx).length : ℚ)) := by
  obtain ⟨hv, he⟩ :=
    combinatorialWorkerResult_apply n u samples indices hnd idx
  have hlen : (combinatorialMarginals n u samples idx).length =
      (samples idx).length := List.length_map _ _
  have hone : (1 : ℚ) ≤ ((samples idx).length : ℚ) := by exact_mod_cast hs
  refine ⟨?_, ?_, ?_⟩
  · simp [combinatorial_montecarlo_worker,
      (dedup_length_eq_iff indices).mpr hnd]
  · rw [hv, if_pos hidx, combinatorialCorrection]
  · rw [he, if_pos hidx, combinatorialCorrection, hlen,
      max_eq_right hone, mul_div_assoc]

/-- C3 (witness): two subsets sampled for item 0 of a two-item dataset with
the cardinality oracle. -/
theorem C3_combinatorial_worker_witness :
    combinatorial_montecarlo_worker 2 (fun s => (s.card : ℚ))
        (fun _ => [∅, {1}]) [0, 1] =
        Except.ok (combinatorialWorkerResult 2 (fun s => (s.card : ℚ))
          (fun _ => [∅, {1}]) [0, 1]) ∧
      (combinatorialWorkerResult 2 (fun s => (s.card : ℚ))
          (fun _ => [∅, {1}]) [0, 1]).values 0 =
        2 ^ (2 - 1) / (2 : ℚ) *
          listMean (combinatorialMarginals 2 (fun s => (s.card : ℚ))
            (fun _ => [∅, {1}]) 0) ∧
      (combinatorialWorkerResult 2 (fun s => (s.card : ℚ))
          (fun _ => [∅, {1}]) [0, 1]).stderrSq 0 =
        (2 ^ (2 - 1) / (2 : ℚ)) ^ 2 *
          (listPopVar (combinatorialMarginals 2 (fun s => (s.card : ℚ))
            (fun _ => [∅, {1}]) 0) /
            (((fun _ : ℕ => [(∅ : Finset ℕ), {1}]) 0).length : ℚ)) :=
  C3_combinatorial_worker 2 (fun s => (s.card : ℚ)) (fun _ => [∅, {1}])
    [0, 1] 0 (by decide) (by decide) (by decide)

/-- C4: the combinatorial worker rejects an index list with duplicates with
`ValueError("Repeated indices passed")`, uniformly in the oracle and in the
sampler output (so before any subset is sampled and before any oracle call),
and returns normally on every duplicate-free index list. -/
theorem C4_duplicate_check (n : ℕ) (indices : List ℕ) :
    (¬ indices.Nodup →
      ∀ (u : Finset ℕ → ℚ) (samples : ℕ → List (Finset ℕ)),
        combinatorial_montecarlo_worker n u samples indices =
          Except.error "Repeated indices passed") ∧
    (indices.Nodup →
      ∀ (u : Finset ℕ → ℚ) (samples : ℕ → List (Finset ℕ)),
        (combinatorial_montecarlo_worker n u samples indices).isOk = true) := by
  constructor
  · intro hdup u samples
    have hne : indices.dedup.length ≠ indices.length := fun heq =>
      hdup ((dedup_length_eq_iff indices).mp heq)
    rw [combinatorial_montecarlo_worker, if_pos hne]
  · intro hnd u samples
    rw [combinatorial_montecarlo_worker,
      if_neg (fun hne => hne ((dedup_length_eq_iff indices).mpr hnd))]
    rfl

/-- C4 (witness): a duplicated list is rejected, a duplicate-free one is
accepted. -/
theorem C4_duplicate_check_witness :
    combinatorial_montecarlo_worker 2 (fun _ => 0) (fun _ => []) [0, 0] =
        Except.error "Repeated indices passed" ∧
      (combinatorial_montecarlo_worker 2 (fun _ => 0) (fun _ => [])
        [0, 1]).isOk = true :=
  ⟨(C4_duplicate_check 2 [0, 0]).1 (by decide) _ _,
    (C4_duplicate_check 2 [0, 1]).2 (by decide) _ _⟩

/-- C5: every tracked item accumulates, over every sampled subset `s` drawn
at probability `q`, exactly `owenContribution`: in `Full` mode an item `i ∉ s`
contributes `(u({i} ∪ s) - u(s)) / max(1/500, 1-q)` and an item `i ∈ s`
contributes nothing; in `Halved` mode an item `i ∈ s` instead contributes the
complementary-subset marginal
`(u({i} ∪ sᶜ) - u(sᶜ)) / max(1/500, 1-q)` with the complement taken in the
index set. -/
theorem C5_owen_accumulation (n : ℕ) (u : Finset ℕ → ℚ)
    (method : OwenAlgorithm) (draws : List (ℚ × List (Finset ℕ)))
    (i : ℕ) (hi : i < n) :
    owenWorkerValues n u method draws i =
      (draws.map (fun qs =>
        (qs.2.map (fun s =>
          owenContribution n u method qs.1 s i)).sum)).sum := by
  rw [owenWorkerValues,
    owenWorkerValues_foldl_apply n u method draws (fun _ => 0) i hi]
  simp

/-- C5 (witness): one subset drawn at `q = 0` for a one-item dataset. -/
theorem C5_owen_accumulation_witness :
    owenWorkerValues 1 (fun s => (s.card : ℚ)) OwenAlgorithm.Full
        [(0, [∅])] 0 =
      ([((0 : ℚ), [(∅ : Finset ℕ)])].map (fun qs =>
        (qs.2.map (fun s =>
          owenContribution 1 (fun s => (s.card : ℚ)) OwenAlgorithm.Full
            qs.1 s 0)).sum)).sum :=
  C5_owen_accumulation 1 (fun s => (s.card : ℚ)) OwenAlgorithm.Full
    [(0, [∅])] 0 (by decide)

/-- C6: the Owen reducer sums the per-worker weighted-marginal vectors and
the per-worker sample counts separately and performs one single division of
the summed vector by the total count (never dividing per worker), and every
worker reports `n_samples = len(q_values) * max_iterations`. -/
theorem C6_owen_reduction (results : List MonteCarloResults) (i : ℕ)
    (n : ℕ) (u : Finset ℕ → ℚ) (method : OwenAlgorithm)
    (draws : List (ℚ × List (Finset ℕ))) (maxIterations : ℕ) :
    (owen_reduce results).values i =
        (results.map (fun r => r.values i)).sum /
          (((results.map (fun r => r.nSamples.getD 0)).sum : ℕ) : ℚ) ∧
      (owen_sampling_worker n u method draws maxIterations).nSamples =
        some (draws.length * maxIterations) := by
  refine ⟨?_, rfl⟩
  obtain ⟨h1, h2⟩ := owen_reduce_foldl_apply results (fun _ => 0, 0) i
  show (results.foldl owenReduceStep (fun _ => 0, 0)).1 i /
      (((results.foldl owenReduceStep (fun _ => 0, 0)).2 : ℕ) : ℚ) = _
  rw [h1, h2]
  norm_num

/-- C7: calling the orchestration entry point with both stopping thresholds
`None` is rejected with a diagnostic error before the polling loop can start;
whenever at least one threshold is set, no such error is raised. -/
theorem C7_unbounded_run_rejected (valueTolerance : Option ℚ)
    (maxIterations : Option ℕ) :
    (valueTolerance = none → maxIterations = none →
      truncated_montecarlo_shapley valueTolerance maxIterations =
        Except.error
          "At least one of value_tolerance and max_iterations must be set") ∧
    (valueTolerance ≠ none ∨ maxIterations ≠ none →
      (truncated_montecarlo_shapley valueTolerance maxIterations).isOk =
        true) := by
  constructor
  · rintro rfl rfl
    rfl
  · intro h
    rcases valueTolerance with _ | vt
    · rcases maxIterations with _ | mi
      · rcases h with h | h <;> simp at h
      · rfl
    · rfl

/-- C7 (witness): the all-`None` configuration errors, one set threshold is
accepted. -/
theorem C7_unbounded_run_rejected_witness :
    truncated_montecarlo_shapley none none =
        Except.error
          "At least one of value_tolerance and max_iterations must be set" ∧
      (truncated_montecarlo_shapley (some 1) none).isOk = true :=
  ⟨(C7_unbounded_run_rejected none none).1 rfl rfl,
    (C7_unbounded_run_rejected (some 1) none).2 (Or.inl (by simp))⟩

/-- C8: the combinatorial reducer combines per-worker results by plain
element-wise vector addition, and on per-worker results coming from any
duplicate-free chunking of the index vector (which have disjoint non-zero
support, each worker owning its own items) this addition reconstructs exactly
the worker result that jointly covers all chunks. -/
theorem C8_disjoint_partition_reduce (n : ℕ) (u : Finset ℕ → ℚ)
    (samples : ℕ → List (Finset ℕ)) (chunks : List (List ℕ))
    (h : chunks.flatten.Nodup) (i : ℕ) :
    ((combinatorial_reduce (chunks.map
          (fun c => combinatorialWorkerResult n u samples c))).values i =
        ((chunks.map (fun c => combinatorialWorkerResult n u samples c)).map
          (fun r => r.values i)).sum ∧
      (combinatorial_reduce (chunks.map
          (fun c => combinatorialWorkerResult n u samples c))).stderrSq i =
        ((chunks.map (fun c => combinatorialWorkerResult n u samples c)).map
          (fun r => r.stderrSq i)).sum) ∧
    ((combinatorial_reduce (chunks.map
          (fun c => combinatorialWorkerResult n u samples c))).values i =
        (combinatorialWorkerResult n u samples chunks.flatten).values i ∧
      (combinatorial_reduce (chunks.map
          (fun c => combinatorialWorkerResult n u samples c))).stderrSq i =
        (combinatorialWorkerResult n u samples chunks.flatten).stderrSq i) := by
  obtain ⟨hall, _⟩ := List.nodup_flatten.mp h
  have hadd := combinatorial_reduce_foldl_apply
    (chunks.map (fun c => combinatorialWorkerResult n u samples c))
    { values := fun _ => 0, stderrSq := fun _ => 0 } i
  have hv : (combinatorial_reduce (chunks.map
      (fun c => combinatorialWorkerResult n u samples c))).values i =
      ((chunks.map (fun c => combinatorialWorkerResult n u samples c)).map
        (fun r => r.values i)).sum := by
    rw [combinatorial_reduce, hadd.1, zero_add]
  have he : (combinatorial_reduce (chunks.map
      (fun c => combinatorialWorkerResult n u samples c))).stderrSq i =
      ((chunks.map (fun c => combinatorialWorkerResult n u samples c)).map
        (fun r => r.stderrSq i)).sum := by
    rw [combinatorial_reduce, hadd.2, zero_add]
  refine ⟨⟨hv, he⟩, ?_, ?_⟩
  · rw [hv, List.map_map]
    have hcongr : chunks.map
        ((fun r => r.values i) ∘ (fun c => combinatorialWorkerResult n u samples c)) =
        chunks.map (fun c =>
          if i ∈ c then
            combinatorialCorrection n *
              listMean (combinatorialMarginals n u samples i)
          else 0) :=
      List.map_congr_left (fun c hc =>
        (combinatorialWorkerResult_apply n u samples c (hall c hc) i).1)
    rw [hcongr,
      sum_if_mem_flatten (fun j => combinatorialCorrection n *
        listMean (combinatorialMarginals n u samples j)) i chunks h,
      (combinatorialWorkerResult_apply n u samples chunks.flatten h i).1]
  · rw [he, List.map_map]
    have hcongr : chunks.map
        ((fun r => r.stderrSq i) ∘ (fun c => combinatorialWorkerResult n u samples c)) =
        chunks.map (fun c =>
          if i ∈ c then
            combinatorialCorrection n ^ 2 *
              listPopVar (combinatorialMarginals n u samples i) /
              max 1 ((combinatorialMarginals n u samples i).length : ℚ)
          else 0) :=
      List.map_congr_left (fun c hc =>
        (combinatorialWorkerResult_apply n u samples c (hall c hc) i).2)
    rw [hcongr,
      sum_if_mem_flatten (fun j => combinatorialCorrection n ^ 2 *
        listPopVar (combinatorialMarginals n u samples j) /
        max 1 ((combinatorialMarginals n u samples j).length : ℚ)) i chunks h,
      (combinatorialWorkerResult_apply n u samples chunks.flatten h i).2]

/-- C8 (witness): two one-item chunks of a two-item dataset. -/
theorem C8_disjoint_partition_reduce_witness :
    ((combinatorial_reduce ([[0], [1]].map
          (fun c => combinatorialWorkerResult 2 (fun s => (s.card : ℚ))
            (fun _ => [∅]) c))).values 0 =
        (([[0], [1]].map (fun c => combinatorialWorkerResult 2
            (fun s => (s.card : ℚ)) (fun _ => [∅]) c)).map
          (fun r => r.values 0)).sum ∧
      (combinatorial_reduce ([[0], [1]].map
          (fun c => combinatorialWorkerResult 2 (fun s => (s.card : ℚ))
            (fun _ => [∅]) c))).stderrSq 0 =
        (([[0], [1]].map (fun c => combinatorialWorkerResult 2
            (fun s => (s.card : ℚ)) (fun _ => [∅]) c)).map
          (fun r => r.stderrSq 0)).sum) ∧
    ((combinatorial_reduce ([[0], [1]].map
          (fun c => combinatorialWorkerResult 2 (fun s => (s.card : ℚ))
            (fun _ => [∅]) c))).values 0 =
        (combinatorialWorkerResult 2 (fun s => (s.card : ℚ))
          (fun _ => [∅]) [[0], [1]].flatten).values 0 ∧
      (combinatorial_reduce ([[0], [1]].map
          (fun c => combinatorialWorkerResult 2 (fun s => (s.card : ℚ))
            (fun _ => [∅]) c))).stderrSq 0 =
        (combinatorialWorkerResult 2 (fun s => (s.card : ℚ))
          (fun _ => [∅]) [[0], [1]].flatten).stderrSq 0) :=
  C8_disjoint_partition_reduce 2 (fun s => (s.card : ℚ)) (fun _ => [∅])
    [[0], [1]] (by decide) 0

/-- C9 (implicit): the Owen estimator's variance tracking is disabled — both
the worker and the reducer return an identically-zero standard-error vector,
for every oracle, budget, mode, draw sequence and worker-result list. -/
theorem C9_owen_zero_stderr (n : ℕ) (u : Finset ℕ → ℚ)
    (method : OwenAlgorithm) (draws : List (ℚ × List (Finset ℕ)))
    (maxIterations : ℕ) (results : List MonteCarloResults) (i : ℕ) :
    (owen_sampling_worker n u method draws maxIterations).stderrSq i = 0 ∧
      (owen_reduce results).stderrSq i = 0 :=
  ⟨rfl, rfl⟩

/-- C10 (implicit): each of the `n_jobs` workers receives exactly
`max(1, max_iterations // n_jobs)` permutations (the job input is replicated,
not chunked), so the total number of permutations actually sampled is
`n_jobs * max(1, max_iterations // n_jobs)` — strictly smaller than the
request at `max_iterations = 10, n_jobs = 4` (8 < 10) and strictly larger at
`max_iterations = 1, n_jobs = 4` (4 > 1). -/
theorem C10_permutation_budget (u : Finset ℕ → ℚ) (perms : ℕ → ℕ → List ℕ)
    (maxIterations nJobs : ℕ) (_h : 1 ≤ nJobs) :
    (permutationJobMatrices u perms maxIterations nJobs).flatten.length =
        nJobs * max 1 (maxIterations / nJobs) ∧
      4 * iterations_per_job 10 4 < 10 ∧
      1 < 4 * iterations_per_job 1 4 := by
  refine ⟨?_, by decide, by decide⟩
  rw [List.length_flatten, permutationJobMatrices, List.map_map]
  simp [permutation_montecarlo_marginals, Function.comp_def,
    iterations_per_job, Nat.mul_comm]

/-- C10 (witness): the concrete budgets from the claim. -/
theorem C10_permutation_budget_witness :
    (permutationJobMatrices (fun _ => 0) (fun _ _ => []) 10 4).flatten.length =
        4 * max 1 (10 / 4) ∧
      4 * iterations_per_job 10 4 < 10 ∧
      1 < 4 * iterations_per_job 1 4 :=
  C10_permutation_budget (fun _ => 0) (fun _ _ => []) 10 4 (by decide)

end PyDVL
